import Mathlib

/-!
Verification of the wrapline record-processing pipeline.

The definitions below are a shallow embedding of `wrapline.go`:

* `parseDelimiter` embeds the Go function of the same name, including the
  behaviour of `strconv.ParseInt(arg[2:], 16, 32)` and of the Go conversion
  `string(rune(value))`.
* `processLine` embeds the Go function of the same name; `replaceAll` embeds
  `strings.ReplaceAll`.
* `mainLoop` / `run` embed the read-process loop of `main` (buffered reader
  with one-record lookahead); `readBytes` embeds `bufio.Reader.ReadBytes`
  on an in-memory stream, `chomp` the trailing-separator removal, and
  `emitInterior` / `emitLast` the two emission blocks of the loop body.
* `trimSpace` embeds `bytes.TrimSpace` with Go's `unicode.IsSpace` set.

Records are modelled as lists of Unicode characters (Go operates on UTF-8
bytes; a valid UTF-8 pattern occurs in a valid UTF-8 text only at rune
boundaries, so the character-level view is faithful).

Separately named `…Spec` definitions transcribe the natural-language
specification and are proved to coincide with (or differ from) the embedded
code.
-/

namespace Wrapline

/-- Go's `unicode.IsSpace`: the Unicode White_Space property. -/
def goIsSpace (c : Char) : Bool :=
  decide ((0x09 ≤ c.toNat ∧ c.toNat ≤ 0x0D) ∨ c.toNat = 0x20 ∨ c.toNat = 0x85 ∨
    c.toNat = 0xA0 ∨ c.toNat = 0x1680 ∨ (0x2000 ≤ c.toNat ∧ c.toNat ≤ 0x200A) ∨
    c.toNat = 0x2028 ∨ c.toNat = 0x2029 ∨ c.toNat = 0x202F ∨ c.toNat = 0x205F ∨
    c.toNat = 0x3000)

/-- `bytes.TrimSpace`: drop leading and trailing white space. -/
def trimSpace (s : List Char) : List Char :=
  ((s.dropWhile goIsSpace).reverse.dropWhile goIsSpace).reverse

/-- Fuelled scanner behind `replaceAll`; with fuel at least `s.length` it
replaces every non-overlapping occurrence of `old`, leftmost first. -/
def replaceAllF (old new : List Char) : Nat → List Char → List Char
  | 0, s => s
  | _ + 1, [] => []
  | fuel + 1, c :: rest =>
    if old ≠ [] ∧ old.isPrefixOf (c :: rest) then
      new ++ replaceAllF old new fuel (List.drop old.length (c :: rest))
    else
      c :: replaceAllF old new fuel rest

/-- `strings.ReplaceAll s old new` (argument order as in Go). For empty
`old`, Go inserts `new` before every character and at the end. -/
def replaceAll (s old new : List Char) : List Char :=
  if old = [] then new ++ s.flatMap (fun c => c :: new)
  else replaceAllF old new s.length s

/-- `processLine` from wrapline.go: build
`delimiter ++ content ++ delimiter ++ "\n"`, escaping occurrences of the
delimiter in the content when requested and the delimiter is non-empty. -/
def processLine (line : List Char) (delimiter : List Char) (escapeDelim : Bool) :
    List Char :=
  delimiter ++
    (if escapeDelim ∧ 0 < delimiter.length then
        replaceAll line delimiter ('\\' :: delimiter)
      else line) ++
    delimiter ++ ['\n']

/-- Error kinds of the delimiter resolver: `invalidHex` is the
`"invalid hex value"` error (spec kind InvalidDelimiterSyntax), `outOfRange`
the `"out of valid Unicode range"` error (spec kind DelimiterOutOfRange). -/
inductive DelimError where
  | invalidHex
  | outOfRange
deriving DecidableEq

/-- Value of one hexadecimal digit, as accepted by `strconv.ParseUint`. -/
def hexDigitVal (c : Char) : Option Nat :=
  if '0' ≤ c ∧ c ≤ '9' then some (c.toNat - '0'.toNat)
  else if 'a' ≤ c ∧ c ≤ 'f' then some (c.toNat - 'a'.toNat + 10)
  else if 'A' ≤ c ∧ c ≤ 'F' then some (c.toNat - 'A'.toNat + 10)
  else none

/-- Accumulator pass over hex digits; fails on the first non-digit. -/
def parseHexAux : List Char → Nat → Option Nat
  | [], acc => some acc
  | c :: rest, acc =>
    match hexDigitVal c with
    | none => none
    | some d => parseHexAux rest (acc * 16 + d)

/-- Mathematical value of a non-empty string of hex digits. -/
def parseHexNat (s : List Char) : Option Nat :=
  if s = [] then none else parseHexAux s 0

/-- Mathematical base-16 value of a token: an optional leading sign followed
by at least one hex digit, with no width restriction.  This transcribes the
spec's "the remainder is parsed as a base-16 integer" and the digit/sign
grammar of `strconv.ParseInt`. -/
def hexValSpec (s : List Char) : Option Int :=
  match s with
  | '+' :: rest => (parseHexNat rest).map (fun n => (n : Int))
  | '-' :: rest => (parseHexNat rest).map (fun n => -(n : Int))
  | _ => (parseHexNat s).map (fun n => (n : Int))

/-- `strconv.ParseInt(s, 16, 32)`: the parsed value must fit a signed
32-bit integer; overflow is an error just like a malformed digit string
(wrapline.go only tests `err != nil`, so both surface identically). -/
def goParseIntHex32 (s : List Char) : Option Int :=
  match hexValSpec s with
  | none => none
  | some v =>
    if v < -(2 ^ 31) ∨ (2 ^ 31 : Int) ≤ v then none else some v

/-- Go's conversion `string(rune(v))` at character level: the code point
itself when `v` is a Unicode scalar value, and U+FFFD (replacement
character) for surrogates or out-of-range values. -/
def goRuneString (v : Int) : List Char :=
  if (0 ≤ v ∧ v < 0xD800) ∨ (0xDFFF < v ∧ v ≤ 0x10FFFF) then
    [Char.ofNat v.toNat]
  else [Char.ofNat 0xFFFD]

/-- `parseDelimiter` from wrapline.go. -/
def parseDelimiter (arg : List Char) : Except DelimError (List Char) :=
  if ['0', 'x'].isPrefixOf arg then
    match goParseIntHex32 (arg.drop 2) with
    | none => .error .invalidHex
    | some value =>
      if value < 0 ∨ (0x10FFFF : Int) < value then .error .outOfRange
      else .ok (goRuneString value)
  else .ok arg

/-- The configuration record of one run (spec section 6). -/
structure Config where
  delimiter : List Char
  stripWS : Bool
  skipEmpty : Bool
  escapeDelim : Bool
  nullTerminated : Bool

/-- The record separator byte: NUL in null-terminated mode, else newline. -/
def sepChar (cfg : Config) : Char :=
  if cfg.nullTerminated then Char.ofNat 0 else '\n'

/-- The optional whitespace-stripping step applied to a record before the
emptiness test (`if *stripWS { processedLine = bytes.TrimSpace(...) }`). -/
def stripRec (cfg : Config) (r : List Char) : List Char :=
  if cfg.stripWS then trimSpace r else r

/-- The EOF-branch emission block of the loop: strip, then emit only if
non-empty ("Always skip empty last lines"). -/
def emitLast (cfg : Config) (r : List Char) : List Char :=
  let p := stripRec cfg r
  if 0 < p.length then processLine p cfg.delimiter cfg.escapeDelim else []

/-- The interior emission block of the loop: strip, then emit unless the
record is empty and skip-empty is on
(`if len(processedLine) > 0 || !*skipEmpty`). -/
def emitInterior (cfg : Config) (r : List Char) : List Char :=
  let p := stripRec cfg r
  if 0 < p.length ∨ cfg.skipEmpty = false then
    processLine p cfg.delimiter cfg.escapeDelim
  else []

/-- `bufio.Reader.ReadBytes(sep)` on an in-memory stream: the data up to and
including the first separator with `eof = false`, or all remaining data with
`eof = true` when no separator occurs.  Result: (data, rest, eof). -/
def readBytes (sep : Char) : List Char → List Char × List Char × Bool
  | [] => ([], [], true)
  | c :: rest =>
    if c = sep then ([c], rest, false)
    else
      let r := readBytes sep rest
      (c :: r.1, r.2.1, r.2.2)

/-- Removal of the trailing separator
(`if len(line) > 0 && line[len(line)-1] == delimByte`). -/
def chomp (sep : Char) (line : List Char) : List Char :=
  match line.getLast? with
  | some c => if c = sep then line.dropLast else line
  | none => line

/-- The read-process loop of `main`, with fuel for structural termination;
each non-EOF iteration consumes at least one character, so any fuel above
the input length is enough (see `run`). -/
def mainLoop (cfg : Config) : Nat → List Char → Option (List Char) → List Char
  | 0, _, _ => []
  | fuel + 1, s, buffered =>
    let r := readBytes (sepChar cfg) s
    let line := chomp (sepChar cfg) r.1
    if r.2.2 then
      (match buffered with
        | some b => emitLast cfg b
        | none => []) ++
      (if line ≠ [] then emitLast cfg line else [])
    else
      (match buffered with
        | some b => emitInterior cfg b
        | none => []) ++
      mainLoop cfg fuel r.2.1 (some line)

/-- The whole record-processing pipeline: output bytes produced by `main`'s
loop on the given input stream. -/
def run (cfg : Config) (input : List Char) : List Char :=
  mainLoop cfg (input.length + 1) input none

/-! ## Specification-side definitions

These transcribe the natural-language specification: record segmentation,
the wrapped-output format, the per-record drop policy, and the
end-of-stream handling, each written from the spec's wording so that the
theorems below compare them with the embedded code. -/

/-- Record segmentation (spec section 4.2): the spans between separators,
including the span between the last separator and end-of-stream.  Always
non-empty; `[""]` for the empty stream. -/
def splitSep (sep : Char) : List Char → List (List Char)
  | [] => [[]]
  | c :: rest =>
    if c = sep then [] :: splitSep sep rest
    else
      match splitSep sep rest with
      | [] => [[c]]
      | r :: rs => (c :: r) :: rs

/-- Fuelled splitter on a non-overlapping leftmost pattern occurrence. -/
def splitOnSeqF (pat : List Char) : Nat → List Char → List (List Char)
  | 0, s => [s]
  | _ + 1, [] => [[]]
  | fuel + 1, c :: rest =>
    if pat ≠ [] ∧ pat.isPrefixOf (c :: rest) then
      [] :: splitOnSeqF pat fuel (List.drop pat.length (c :: rest))
    else
      match splitOnSeqF pat fuel rest with
      | [] => [[c]]
      | r :: rs => (c :: r) :: rs

/-- The pieces of `s` between non-overlapping leftmost occurrences of
`pat`. -/
def splitOnSeq (pat s : List Char) : List (List Char) :=
  splitOnSeqF pat s.length s

/-- Join pieces with a separator between adjacent pieces. -/
def joinWith (sep : List Char) : List (List Char) → List Char
  | [] => []
  | [x] => x
  | x :: y :: rest => x ++ sep ++ joinWith sep (y :: rest)

/-- Escaping as specified: every non-overlapping literal occurrence of the
delimiter inside the content is replaced by a backslash followed by the
delimiter. -/
def escapeSpec (d content : List Char) : List Char :=
  joinWith ('\\' :: d) (splitOnSeq d content)

/-- The specified shape of one emitted record:
`delimiter ++ possibly-escaped content ++ delimiter ++ "\n"`, the content
escaped exactly when escaping is enabled and the delimiter is non-empty;
the trailing `'\n'` does not depend on the input separator mode. -/
def wrapSpec (cfg : Config) (content : List Char) : List Char :=
  cfg.delimiter ++
    (if cfg.escapeDelim = true ∧ cfg.delimiter ≠ [] then
        escapeSpec cfg.delimiter content
      else content) ++
    cfg.delimiter ++ ['\n']

/-- Declarative form of the loop's output over a record list: all records
except the final two are emitted under the interior policy; the final two
(the record pending at end-of-stream and the unterminated fragment, in
stream order) under the terminal policy. -/
def refRest (cfg : Config) (recs : List (List Char)) : List Char :=
  (recs.take (recs.length - 2)).flatMap (emitInterior cfg) ++
    (recs.drop (recs.length - 2)).flatMap (emitLast cfg)

/-- Survival of an interior record under the drop policy: kept (with its
processed content) unless empty after optional stripping while skip-empty
is on. -/
def keepInterior (cfg : Config) (r : List Char) : Option (List Char) :=
  if stripRec cfg r ≠ [] ∨ cfg.skipEmpty = false then some (stripRec cfg r)
  else none

/-- Survival of a terminal record: kept only if non-empty after optional
stripping, regardless of flags. -/
def keepLast (cfg : Config) (r : List Char) : Option (List Char) :=
  if stripRec cfg r ≠ [] then some (stripRec cfg r) else none

/-- The processed contents that survive the drop policy, in stream order
(spec section 4.2 steps 1-3, with the loop's actual notion of which records
receive the unconditional terminal rule). -/
def keptRecords (cfg : Config) (input : List Char) : List (List Char) :=
  let recs := splitSep (sepChar cfg) input
  (recs.take (recs.length - 2)).filterMap (keepInterior cfg) ++
    (recs.drop (recs.length - 2)).filterMap (keepLast cfg)

/-- Per-record output under the (amended) spec drop policy, for the record
at position `i` of `n`: records in the final two positions are dropped when
empty regardless of flags; earlier records are dropped exactly when empty
and skip-empty is on. -/
def dropRule (cfg : Config) (n i : Nat) (r : List Char) : List Char :=
  let p := stripRec cfg r
  if p = [] ∧ (n ≤ i + 2 ∨ cfg.skipEmpty = true) then [] else wrapSpec cfg p

/-- Per-record output under the claim's literal drop policy: only the very
last record receives the unconditional empty-drop; every other record is
dropped exactly when empty and skip-empty is on. -/
def naiveRule (cfg : Config) (n i : Nat) (r : List Char) : List Char :=
  let p := stripRec cfg r
  if p = [] ∧ (n ≤ i + 1 ∨ cfg.skipEmpty = true) then [] else wrapSpec cfg p

/-- Concatenated per-record outputs, tracking the record position. -/
def contribFrom (f : Nat → List Char → List Char) : Nat → List (List Char) → List Char
  | _, [] => []
  | i, r :: rs => f i r ++ contribFrom f (i + 1) rs

/-- Whole-stream output under the (amended) per-record drop policy. -/
def specRun (cfg : Config) (input : List Char) : List Char :=
  let recs := splitSep (sepChar cfg) input
  contribFrom (dropRule cfg recs.length) 0 recs

/-- Whole-stream output under the claim's literal drop policy. -/
def naiveRun (cfg : Config) (input : List Char) : List Char :=
  let recs := splitSep (sepChar cfg) input
  contribFrom (naiveRule cfg recs.length) 0 recs

/-- The last record of the stream (the span after the final separator;
the whole input when no separator occurs). -/
def lastRecord (cfg : Config) (input : List Char) : List Char :=
  (splitSep (sepChar cfg) input).getLastD []

/-- Output of the pipeline with the last record's contribution removed:
of the remaining records, the final one (the record pending at
end-of-stream) keeps the terminal policy and all earlier ones the interior
policy. -/
def outputSansLast (cfg : Config) (input : List Char) : List Char :=
  let recs := (splitSep (sepChar cfg) input).dropLast
  (recs.take (recs.length - 1)).flatMap (emitInterior cfg) ++
    (recs.drop (recs.length - 1)).flatMap (emitLast cfg)

/-- Terminal-record handling as specified: unconditionally dropped when
empty after optional stripping, otherwise emitted, independent of the
skip-empty flag. -/
def terminalOut (cfg : Config) (r : List Char) : List Char :=
  let p := stripRec cfg r
  if p = [] then [] else wrapSpec cfg p

/-- Output contributed by the interior records (all but the final two). -/
def interiorPart (cfg : Config) (input : List Char) : List Char :=
  let recs := splitSep (sepChar cfg) input
  (recs.take (recs.length - 2)).flatMap (emitInterior cfg)

/-- Output contributed at end-of-stream: the pending record first, then the
unterminated trailing fragment, each under the unconditional terminal
rule. -/
def terminalPart (cfg : Config) (input : List Char) : List Char :=
  let recs := splitSep (sepChar cfg) input
  (recs.drop (recs.length - 2)).flatMap (terminalOut cfg)

/-! ## The lookahead loop as a step machine (for the state invariant) -/

/-- One state of the read-process loop: the unread rest of the stream, the
lookahead buffer (`bufferedLine` plus `hasBufferedLine`, as an option), the
output written so far, and whether the loop has exited. -/
structure LoopState where
  remaining : List Char
  buffered : Option (List Char)
  output : List Char
  done : Bool

/-- State on entry to the loop. -/
def initState (input : List Char) : LoopState :=
  { remaining := input, buffered := none, output := [], done := false }

/-- One iteration of the loop body of `main`. -/
def stepLoop (cfg : Config) (st : LoopState) : LoopState :=
  if st.done then st
  else
    let r := readBytes (sepChar cfg) st.remaining
    let line := chomp (sepChar cfg) r.1
    if r.2.2 then
      { remaining := [], buffered := none, done := true,
        output := st.output ++
          (match st.buffered with
            | some b => emitLast cfg b
            | none => []) ++
          (if line ≠ [] then emitLast cfg line else []) }
    else
      { remaining := r.2.1, buffered := some line, done := false,
        output := st.output ++
          (match st.buffered with
            | some b => emitInterior cfg b
            | none => []) }

/-! ## Basic lemmas about segmentation and reading -/

theorem splitSep_ne_nil (sep : Char) (s : List Char) : splitSep sep s ≠ [] := by
  induction s with
  | nil => simp [splitSep]
  | cons c rest ih =>
    simp only [splitSep]
    split
    · simp
    · cases h : splitSep sep rest with
      | nil => simp
      | cons r rs => simp

theorem readBytes_not_mem {sep : Char} {s : List Char} (h : sep ∉ s) :
    readBytes sep s = (s, [], true) := by
  induction s with
  | nil => rfl
  | cons c rest ih =>
    have hc : ¬c = sep := fun hcs => h (hcs ▸ List.mem_cons_self c rest)
    have hrest : sep ∉ rest := fun hm => h (List.mem_cons_of_mem c hm)
    simp [readBytes, hc, ih hrest]

theorem readBytes_first {sep : Char} {pre : List Char} (rest : List Char)
    (h : sep ∉ pre) :
    readBytes sep (pre ++ sep :: rest) = (pre ++ [sep], rest, false) := by
  induction pre with
  | nil => simp [readBytes]
  | cons c p ih =>
    have hc : ¬c = sep := fun hcs => h (hcs ▸ List.mem_cons_self c p)
    have hp : sep ∉ p := fun hm => h (List.mem_cons_of_mem c hm)
    simp [readBytes, hc, ih hp]

theorem splitSep_not_mem {sep : Char} {s : List Char} (h : sep ∉ s) :
    splitSep sep s = [s] := by
  induction s with
  | nil => rfl
  | cons c rest ih =>
    have hc : ¬c = sep := fun hcs => h (hcs ▸ List.mem_cons_self c rest)
    have hrest : sep ∉ rest := fun hm => h (List.mem_cons_of_mem c hm)
    simp [splitSep, hc, ih hrest]

theorem splitSep_first {sep : Char} {pre : List Char} (rest : List Char)
    (h : sep ∉ pre) :
    splitSep sep (pre ++ sep :: rest) = pre :: splitSep sep rest := by
  induction pre with
  | nil => simp [splitSep]
  | cons c p ih =>
    have hc : ¬c = sep := fun hcs => h (hcs ▸ List.mem_cons_self c p)
    have hp : sep ∉ p := fun hm => h (List.mem_cons_of_mem c hm)
    simp [splitSep, hc, ih hp]

theorem chomp_not_mem {sep : Char} {s : List Char} (h : sep ∉ s) :
    chomp sep s = s := by
  unfold chomp
  cases hg : s.getLast? with
  | none => rfl
  | some c =>
    have hc : c ∈ s := by
      obtain ⟨hne, hx⟩ := List.mem_getLast?_eq_getLast (Option.mem_def.mpr hg)
      exact hx ▸ List.getLast_mem hne
    have : ¬c = sep := fun hcs => h (hcs ▸ hc)
    simp [this]

theorem chomp_concat (sep : Char) (pre : List Char) :
    chomp sep (pre ++ [sep]) = pre := by
  unfold chomp
  rw [List.getLast?_concat]
  simp

theorem exists_first_sep {sep : Char} {s : List Char} (h : sep ∈ s) :
    ∃ pre rest, sep ∉ pre ∧ s = pre ++ sep :: rest := by
  induction s with
  | nil => cases h
  | cons c t ih =>
    by_cases hc : c = sep
    · exact ⟨[], t, by simp, by simp [hc]⟩
    · have ht : sep ∈ t := by
        rcases List.mem_cons.mp h with h1 | h2
        · exact absurd h1.symm hc
        · exact h2
      obtain ⟨pre, rest, hpre, heq⟩ := ih ht
      exact ⟨c :: pre, rest, by
        intro hm
        rcases List.mem_cons.mp hm with h1 | h2
        · exact hc h1.symm
        · exact hpre h2, by simp [heq]⟩

theorem trimSpace_nil : trimSpace [] = [] := rfl

theorem stripRec_nil (cfg : Config) : stripRec cfg [] = [] := by
  unfold stripRec
  split <;> rfl

theorem emitLast_nil (cfg : Config) : emitLast cfg [] = [] := by
  simp [emitLast, stripRec_nil]

/-! ## The loop computes the declarative record policy -/

theorem refRest_single (cfg : Config) (r : List Char) :
    refRest cfg [r] = emitLast cfg r := by
  simp [refRest]

theorem refRest_pair (cfg : Config) (b r : List Char) :
    refRest cfg [b, r] = emitLast cfg b ++ emitLast cfg r := by
  simp [refRest]

theorem refRest_cons (cfg : Config) (b : List Char) (recs : List (List Char))
    (h : 2 ≤ recs.length) :
    refRest cfg (b :: recs) = emitInterior cfg b ++ refRest cfg recs := by
  unfold refRest
  have h1 : (b :: recs).length - 2 = (recs.length - 2) + 1 := by
    simp only [List.length_cons]
    omega
  rw [h1, List.take_succ_cons, List.drop_succ_cons, List.flatMap_cons,
    List.append_assoc]

theorem mainLoop_some (cfg : Config) :
    ∀ (fuel : Nat) (s b : List Char), s.length < fuel →
      mainLoop cfg fuel s (some b) =
        refRest cfg (b :: splitSep (sepChar cfg) s) := by
  intro fuel
  induction fuel with
  | zero => intro s b h; omega
  | succ fuel ih =>
    intro s b h
    by_cases hm : sepChar cfg ∈ s
    · obtain ⟨pre, rest, hpre, rfl⟩ := exists_first_sep hm
      have hrb := @readBytes_first (sepChar cfg) pre rest hpre
      have hlen : rest.length < fuel := by
        simp only [List.length_append, List.length_cons] at h
        omega
      simp only [mainLoop, hrb]
      simp only [chomp_concat]
      rw [ih rest pre hlen, splitSep_first rest hpre]
      have h2 : 2 ≤ (pre :: splitSep (sepChar cfg) rest).length := by
        have := splitSep_ne_nil (sepChar cfg) rest
        cases hsp : splitSep (sepChar cfg) rest with
        | nil => exact absurd hsp this
        | cons x xs => simp
      rw [refRest_cons cfg b _ h2]
      simp
    · have hrb := readBytes_not_mem hm
      simp only [mainLoop, hrb]
      rw [splitSep_not_mem hm, refRest_pair, chomp_not_mem hm]
      by_cases hs : s = []
      · subst hs
        simp [emitLast_nil]
      · simp [hs]

theorem mainLoop_none (cfg : Config) :
    ∀ (fuel : Nat) (s : List Char), s.length < fuel →
      mainLoop cfg fuel s none = refRest cfg (splitSep (sepChar cfg) s) := by
  intro fuel
  cases fuel with
  | zero => intro s h; omega
  | succ fuel =>
    intro s h
    by_cases hm : sepChar cfg ∈ s
    · obtain ⟨pre, rest, hpre, rfl⟩ := exists_first_sep hm
      have hrb := @readBytes_first (sepChar cfg) pre rest hpre
      have hlen : rest.length < fuel := by
        simp only [List.length_append, List.length_cons] at h
        omega
      simp only [mainLoop, hrb]
      simp only [chomp_concat]
      rw [mainLoop_some cfg fuel rest pre hlen, splitSep_first rest hpre]
      simp
    · have hrb := readBytes_not_mem hm
      simp only [mainLoop, hrb]
      rw [splitSep_not_mem hm, refRest_single, chomp_not_mem hm]
      by_cases hs : s = []
      · subst hs
        simp [emitLast_nil]
      · simp [hs]

/-- The loop's output is exactly the declarative per-record policy applied
to the record decomposition of the input. -/
theorem run_eq_refRest (cfg : Config) (input : List Char) :
    run cfg input = refRest cfg (splitSep (sepChar cfg) input) :=
  mainLoop_none cfg (input.length + 1) input (Nat.lt_succ_self _)

/-! ## Escaping: the code's scan equals the specified replacement -/

theorem splitOnSeqF_ne_nil (pat : List Char) :
    ∀ (fuel : Nat) (s : List Char), splitOnSeqF pat fuel s ≠ [] := by
  intro fuel
  induction fuel with
  | zero => intro s; simp [splitOnSeqF]
  | succ fuel ih =>
    intro s
    cases s with
    | nil => simp [splitOnSeqF]
    | cons c rest =>
      simp only [splitOnSeqF]
      split
      · simp
      · cases h : splitOnSeqF pat fuel rest with
        | nil => simp
        | cons r rs => simp

theorem joinWith_cons_cons (sep c : List Char) (r : List Char)
    (rs : List (List Char)) :
    joinWith sep ((c ++ r) :: rs) = c ++ joinWith sep (r :: rs) := by
  cases rs with
  | nil => simp [joinWith]
  | cons y t => simp [joinWith]

theorem joinWith_nil_cons (sep : List Char) (l : List (List Char))
    (h : l ≠ []) : joinWith sep ([] :: l) = sep ++ joinWith sep l := by
  cases l with
  | nil => exact absurd rfl h
  | cons y t => simp [joinWith]

theorem replaceAllF_eq_joinWith (old new : List Char) (hold : old ≠ []) :
    ∀ (fuel : Nat) (s : List Char), s.length ≤ fuel →
      replaceAllF old new fuel s = joinWith new (splitOnSeqF old fuel s) := by
  intro fuel
  induction fuel with
  | zero =>
    intro s hs
    have : s = [] := List.length_eq_zero.mp (Nat.le_zero.mp hs)
    subst this
    simp [replaceAllF, splitOnSeqF, joinWith]
  | succ fuel ih =>
    intro s hs
    cases s with
    | nil => simp [replaceAllF, splitOnSeqF, joinWith]
    | cons c rest =>
      simp only [replaceAllF, splitOnSeqF]
      by_cases hp : old ≠ [] ∧ old.isPrefixOf (c :: rest)
      · rw [if_pos hp, if_pos hp]
        have hlen : (List.drop old.length (c :: rest)).length ≤ fuel := by
          have h1 : 1 ≤ old.length := by
            cases old with
            | nil => exact absurd rfl hold
            | cons x xs => simp
          simp only [List.length_drop, List.length_cons]
          simp only [List.length_cons] at hs
          omega
        rw [ih _ hlen,
          joinWith_nil_cons new _ (splitOnSeqF_ne_nil old fuel _)]
      · rw [if_neg hp, if_neg hp]
        have hlen : rest.length ≤ fuel := by
          simp only [List.length_cons] at hs
          omega
        rw [ih rest hlen]
        cases hsp : splitOnSeqF old fuel rest with
        | nil => exact absurd hsp (splitOnSeqF_ne_nil old fuel rest)
        | cons r rs =>
          have := joinWith_cons_cons new [c] r rs
          simpa using this.symm

theorem replaceAll_eq_escapeSpec (s d : List Char) (hd : d ≠ []) :
    replaceAll s d ('\\' :: d) = escapeSpec d s := by
  unfold replaceAll escapeSpec splitOnSeq
  rw [if_neg hd]
  exact replaceAllF_eq_joinWith d ('\\' :: d) hd s.length s (Nat.le_refl _)

/-- `processLine` emits exactly the specified wrapped shape. -/
theorem processLine_eq_wrapSpec (cfg : Config) (p : List Char) :
    processLine p cfg.delimiter cfg.escapeDelim = wrapSpec cfg p := by
  unfold processLine wrapSpec
  by_cases he : cfg.escapeDelim = true
  · by_cases hd : cfg.delimiter = []
    · simp [he, hd]
    · have hlen : 0 < cfg.delimiter.length := List.length_pos.mpr hd
      rw [if_pos ⟨he, hlen⟩, if_pos ⟨he, hd⟩, replaceAll_eq_escapeSpec _ _ hd]
  · have he' : ¬(cfg.escapeDelim = true ∧ 0 < cfg.delimiter.length) :=
      fun h => he h.1
    have he'' : ¬(cfg.escapeDelim = true ∧ cfg.delimiter ≠ []) :=
      fun h => he h.1
    rw [if_neg he', if_neg he'']

/-! ## Per-record policies -/

theorem emitLast_eq_terminalOut (cfg : Config) (r : List Char) :
    emitLast cfg r = terminalOut cfg r := by
  unfold emitLast terminalOut
  by_cases hp : stripRec cfg r = []
  · simp [hp]
  · have hl : 0 < (stripRec cfg r).length := List.length_pos.mpr hp
    simp only [hp, hl, if_pos, ite_false]
    exact processLine_eq_wrapSpec cfg _

theorem dropRule_last (cfg : Config) {n i : Nat} (r : List Char)
    (h : n ≤ i + 2) : dropRule cfg n i r = emitLast cfg r := by
  unfold dropRule
  rw [emitLast_eq_terminalOut]
  unfold terminalOut
  by_cases hp : stripRec cfg r = []
  · simp [hp, h]
  · simp [hp]

theorem dropRule_interior (cfg : Config) {n i : Nat} (r : List Char)
    (h : ¬n ≤ i + 2) : dropRule cfg n i r = emitInterior cfg r := by
  unfold dropRule emitInterior
  by_cases hp : stripRec cfg r = []
  · by_cases hs : cfg.skipEmpty = true
    · simp [hp, hs, h]
    · have hs' : cfg.skipEmpty = false := by
        cases hcf : cfg.skipEmpty
        · rfl
        · exact absurd hcf hs
      simp [hp, hs, hs', h]
      exact (processLine_eq_wrapSpec cfg _).symm
  · have : 0 < (stripRec cfg r).length := List.length_pos.mpr hp
    simp [hp, this]
    exact (processLine_eq_wrapSpec cfg _).symm

theorem contribFrom_dropRule (cfg : Config) (n : Nat) :
    ∀ (recs : List (List Char)) (i : Nat), i + recs.length = n →
      contribFrom (dropRule cfg n) i recs =
        (recs.take (n - 2 - i)).flatMap (emitInterior cfg) ++
          (recs.drop (n - 2 - i)).flatMap (emitLast cfg) := by
  intro recs
  induction recs with
  | nil => intro i h; simp [contribFrom]
  | cons r rs ih =>
    intro i h
    rw [List.length_cons] at h
    by_cases hlt : n ≤ i + 2
    · have h0 : n - 2 - i = 0 := by omega
      have h1 : n - 2 - (i + 1) = 0 := by omega
      rw [h0]
      simp only [contribFrom, List.take_zero, List.drop_zero,
        List.flatMap_nil, List.nil_append, List.flatMap_cons]
      rw [dropRule_last cfg r hlt, ih (i + 1) (by omega)]
      rw [h1]
      simp
    · have h0 : n - 2 - i = (n - 2 - (i + 1)) + 1 := by omega
      rw [h0]
      simp only [contribFrom, List.take_succ_cons, List.drop_succ_cons,
        List.flatMap_cons]
      rw [dropRule_interior cfg r hlt, ih (i + 1) (by omega),
        List.append_assoc]

/-- The loop's output equals the per-record drop policy with the final two
records under the terminal rule. -/
theorem run_eq_specRun (cfg : Config) (input : List Char) :
    run cfg input = specRun cfg input := by
  rw [run_eq_refRest]
  unfold specRun refRest
  rw [contribFrom_dropRule cfg _ _ 0 (by simp)]
  simp

theorem emitInterior_eq_keep (cfg : Config) (r : List Char) :
    emitInterior cfg r =
      match keepInterior cfg r with
      | some p => wrapSpec cfg p
      | none => [] := by
  unfold emitInterior keepInterior
  by_cases hc : stripRec cfg r ≠ [] ∨ cfg.skipEmpty = false
  · have hc' : 0 < (stripRec cfg r).length ∨ cfg.skipEmpty = false := by
      rcases hc with h | h
      · exact Or.inl (List.length_pos.mpr h)
      · exact Or.inr h
    rw [if_pos hc, if_pos hc']
    exact processLine_eq_wrapSpec cfg _
  · have hc' : ¬(0 < (stripRec cfg r).length ∨ cfg.skipEmpty = false) := by
      intro h
      rcases h with h | h
      · exact hc (Or.inl (fun he => by rw [he] at h; exact Nat.lt_irrefl 0 h))
      · exact hc (Or.inr h)
    rw [if_neg hc, if_neg hc']

theorem emitLast_eq_keep (cfg : Config) (r : List Char) :
    emitLast cfg r =
      match keepLast cfg r with
      | some p => wrapSpec cfg p
      | none => [] := by
  unfold emitLast keepLast
  by_cases hc : stripRec cfg r ≠ []
  · rw [if_pos hc, if_pos (List.length_pos.mpr hc)]
    exact processLine_eq_wrapSpec cfg _
  · have hc' : ¬0 < (stripRec cfg r).length := by
      simp only [not_not] at hc
      simp [hc]
    rw [if_neg hc, if_neg hc']

theorem filterMap_interior (cfg : Config) (l : List (List Char)) :
    (l.filterMap (keepInterior cfg)).flatMap (wrapSpec cfg) =
      l.flatMap (emitInterior cfg) := by
  induction l with
  | nil => rfl
  | cons r rs ih =>
    rw [List.filterMap_cons, List.flatMap_cons, emitInterior_eq_keep]
    cases hk : keepInterior cfg r with
    | none => simp [ih]
    | some p => simp [ih]

theorem filterMap_last (cfg : Config) (l : List (List Char)) :
    (l.filterMap (keepLast cfg)).flatMap (wrapSpec cfg) =
      l.flatMap (emitLast cfg) := by
  induction l with
  | nil => rfl
  | cons r rs ih =>
    rw [List.filterMap_cons, List.flatMap_cons, emitLast_eq_keep]
    cases hk : keepLast cfg r with
    | none => simp [ih]
    | some p => simp [ih]

/-! ## Helper facts for the whitespace and last-record claims -/

theorem processLine_ne_nil (p d : List Char) (e : Bool) :
    processLine p d e ≠ [] := by
  unfold processLine
  intro h
  have := congrArg List.length h
  simp [List.length_append] at this

theorem wrapSpec_ne_nil (cfg : Config) (p : List Char) :
    wrapSpec cfg p ≠ [] := by
  rw [← processLine_eq_wrapSpec]
  exact processLine_ne_nil p cfg.delimiter cfg.escapeDelim

theorem trimSpace_all_space {r : List Char}
    (h : ∀ c ∈ r, goIsSpace c = true) : trimSpace r = [] := by
  unfold trimSpace
  have h1 : r.dropWhile goIsSpace = [] := List.dropWhile_eq_nil_iff.mpr h
  simp [h1]

theorem refRest_sans_last (cfg : Config) (recs : List (List Char))
    (hne : recs ≠ []) (hlast : emitLast cfg (recs.getLast hne) = []) :
    refRest cfg recs =
      (recs.dropLast.take (recs.dropLast.length - 1)).flatMap
          (emitInterior cfg) ++
        (recs.dropLast.drop (recs.dropLast.length - 1)).flatMap
          (emitLast cfg) := by
  have hsplit : recs.dropLast ++ [recs.getLast hne] = recs :=
    List.dropLast_append_getLast hne
  unfold refRest
  rw [← hsplit]
  have hlen : (recs.dropLast ++ [recs.getLast hne]).length =
      recs.dropLast.length + 1 := by simp
  rw [hlen]
  have h2 : recs.dropLast.length + 1 - 2 = recs.dropLast.length - 1 := by
    omega
  rw [h2, List.take_append_of_le_length (by omega),
    List.drop_append_of_le_length (by omega), List.flatMap_append]
  simp [hlast]

theorem getLastD_eq_getLast (recs : List (List Char)) (hne : recs ≠ []) :
    recs.getLastD [] = recs.getLast hne := by
  cases recs with
  | nil => exact absurd rfl hne
  | cons r rs => simp [List.getLastD_eq_getLast?, List.getLast?_eq_getLast]

/-! ## The lookahead invariant -/

theorem stepLoop_inv (cfg : Config) (input : List Char) :
    ∀ k : Nat, ∃ c : List Char,
      input = c ++ ((stepLoop cfg)^[k] (initState input)).remaining ∧
        ∀ b : List Char,
          ((stepLoop cfg)^[k] (initState input)).buffered = some b →
            sepChar cfg ∉ b ∧ ∃ c1, c = c1 ++ b ++ [sepChar cfg] := by
  intro k
  induction k with
  | zero =>
    refine ⟨[], by simp [initState], ?_⟩
    intro b hb
    simp [initState] at hb
  | succ k ih =>
    obtain ⟨c, hc, hb⟩ := ih
    rw [Function.iterate_succ_apply']
    set st := (stepLoop cfg)^[k] (initState input) with hst
    cases hdone : st.done with
    | true =>
      have : stepLoop cfg st = st := by simp [stepLoop, hdone]
      rw [this]
      exact ⟨c, hc, hb⟩
    | false =>
      by_cases hm : sepChar cfg ∈ st.remaining
      · obtain ⟨pre, rest, hpre, heq⟩ := exists_first_sep hm
        have hrb := @readBytes_first (sepChar cfg) pre rest hpre
        have hstep : (stepLoop cfg st).remaining = rest ∧
            (stepLoop cfg st).buffered = some pre := by
          simp [stepLoop, hdone, heq, hrb, chomp_concat]
        refine ⟨c ++ (pre ++ [sepChar cfg]), ?_, ?_⟩
        · rw [hstep.1, hc, heq]
          simp
        · intro b hbb
          rw [hstep.2] at hbb
          cases hbb
          exact ⟨hpre, c, by simp⟩
      · have hrb := readBytes_not_mem hm
        have hstep : (stepLoop cfg st).remaining = [] ∧
            (stepLoop cfg st).buffered = none := by
          simp [stepLoop, hdone, hrb]
        refine ⟨input, by simp [hstep.1], ?_⟩
        intro b hbb
        rw [hstep.2] at hbb
        cases hbb

/-! ## Emptiness classification of the emission blocks -/

theorem emitLast_eq_nil_iff (cfg : Config) (r : List Char) :
    emitLast cfg r = [] ↔ stripRec cfg r = [] := by
  unfold emitLast
  by_cases hp : stripRec cfg r = []
  · simp [hp]
  · have hl : 0 < (stripRec cfg r).length := List.length_pos.mpr hp
    rw [if_pos hl]
    exact ⟨fun h => absurd h (processLine_ne_nil _ _ _), fun h => absurd h hp⟩

theorem emitInterior_eq_nil_iff (cfg : Config) (r : List Char) :
    emitInterior cfg r = [] ↔
      (stripRec cfg r = [] ∧ cfg.skipEmpty = true) := by
  unfold emitInterior
  by_cases hp : stripRec cfg r = []
  · by_cases hs : cfg.skipEmpty = true
    · have : ¬(0 < (stripRec cfg r).length ∨ cfg.skipEmpty = false) := by
        intro h
        rcases h with h | h
        · rw [hp] at h
          exact Nat.lt_irrefl 0 h
        · rw [hs] at h
          cases h
      simp [this, hp, hs]
    · have hs' : cfg.skipEmpty = false := by
        cases hcf : cfg.skipEmpty
        · rfl
        · exact absurd hcf hs
      rw [if_pos (Or.inr hs')]
      simp [hs', processLine_ne_nil]
  · have hl : 0 < (stripRec cfg r).length := List.length_pos.mpr hp
    rw [if_pos (Or.inl hl)]
    simp [hp, processLine_ne_nil]

/-! ## Concrete configurations used in the closed instances -/

/-- Default configuration: delimiter `"` with all flags off. -/
def cfgDefault : Config := ⟨['"'], false, false, false, false⟩

/-- Default configuration with whitespace stripping on. -/
def cfgStrip : Config := ⟨['"'], true, false, false, false⟩

/-! ## The claims -/

/-- C1: for every record that is not dropped, the pipeline writes exactly
the opening delimiter, the content (with every non-overlapping literal
occurrence of the delimiter replaced by a backslash followed by the
delimiter exactly when escaping is enabled and the delimiter is non-empty),
the closing delimiter, and a single `'\n'` — whose presence is independent
of the separator mode, null-terminated included — and nothing else: the
whole output is the concatenation of `wrapSpec` over the surviving
records. -/
theorem wrap_format_C1 (cfg : Config) (input : List Char) :
    run cfg input = (keptRecords cfg input).flatMap (wrapSpec cfg) := by
  rw [run_eq_refRest]
  unfold keptRecords refRest
  rw [List.flatMap_append, filterMap_interior, filterMap_last]

/-- C2: the last record, after optional stripping, is dropped when empty
whatever the flags are (its contribution to the output vanishes); the
single-separator input `"\n"` and the empty input both produce empty
output. -/
theorem last_empty_dropped_C2 (cfg : Config) (input : List Char) :
    (stripRec cfg (lastRecord cfg input) = [] →
      run cfg input = outputSansLast cfg input) ∧
    (cfg.nullTerminated = false → run cfg ['\n'] = []) ∧
    run cfg [] = [] := by
  refine ⟨?_, ?_, ?_⟩
  · intro h
    have hne := splitSep_ne_nil (sepChar cfg) input
    have heq : lastRecord cfg input =
        (splitSep (sepChar cfg) input).getLast hne :=
      getLastD_eq_getLast _ hne
    have hlast :
        emitLast cfg ((splitSep (sepChar cfg) input).getLast hne) = [] := by
      rw [emitLast_eq_nil_iff, ← heq]
      exact h
    rw [run_eq_refRest, refRest_sans_last cfg _ hne hlast]
    rfl
  · intro hnull
    have hsep : sepChar cfg = '\n' := by simp [sepChar, hnull]
    rw [run_eq_refRest, hsep]
    have hx : splitSep '\n' ['\n'] = [[], []] := rfl
    rw [hx, refRest_pair, emitLast_nil]
    rfl
  · rw [run_eq_refRest]
    have hx : splitSep (sepChar cfg) [] = [[]] := rfl
    rw [hx, refRest_single, emitLast_nil]

theorem last_empty_dropped_C2_witness :
    run cfgDefault ("x\n\n").toList =
        outputSansLast cfgDefault ("x\n\n").toList ∧
      run cfgDefault ['\n'] = [] ∧ run cfgDefault [] = [] :=
  ⟨(last_empty_dropped_C2 cfgDefault ("x\n\n").toList).1 (by decide),
    (last_empty_dropped_C2 cfgDefault ['\n']).2.1 rfl,
    (last_empty_dropped_C2 cfgDefault []).2.2⟩

/-- C3 counterexample: with the default configuration (skip-empty off) on
`"hello\nworld\n\n"`, the record at position 2 of 4 is empty and interior
(position 3 holds the last record), yet the code's output — matching the
repository's own TestEmptyLastLine — omits the empty wrapped pair `""`
that the claim requires, because the record pending at end-of-stream is
dropped unconditionally. -/
theorem interior_empty_C3_cex :
    cfgDefault.skipEmpty = false ∧
    splitSep '\n' ("hello\nworld\n\n").toList =
      [("hello").toList, ("world").toList, [], []] ∧
    naiveRun cfgDefault ("hello\nworld\n\n").toList =
      ("\"hello\"\n\"world\"\n\"\"\n").toList ∧
    run cfgDefault ("hello\nworld\n\n").toList =
      ("\"hello\"\n\"world\"\n").toList ∧
    run cfgDefault ("hello\nworld\n\n").toList ≠
      naiveRun cfgDefault ("hello\nworld\n\n").toList :=
  ⟨rfl, by decide, by decide, by decide, by decide⟩

/-- C3 amended: an interior record other than the one pending at
end-of-stream (every record except the final two of the segmentation) is
dropped iff it is empty after optional stripping and skip-empty is on, and
is otherwise emitted, even when empty; the final two records — the pending
record and the trailing fragment — are dropped when empty unconditionally.
`specRun` states exactly this position-indexed policy. -/
theorem interior_empty_C3 (cfg : Config) (input : List Char) :
    run cfg input = specRun cfg input :=
  run_eq_specRun cfg input

/-- The resolver's behaviour on a `0x` token, stated from the spec's view:
the error kind is determined by the mathematical value of the remainder —
no parse (or 32-bit overflow) gives the syntax-kind error, a 32-bit value
outside the Unicode range gives the range-kind error, anything else
succeeds with the value's character. -/
def resolveSpec (s : List Char) : Except DelimError (List Char) :=
  match hexValSpec s with
  | none => .error DelimError.invalidHex
  | some v =>
    if v < -(2 ^ 31) ∨ (2 ^ 31 : Int) ≤ v then .error DelimError.invalidHex
    else if v < 0 ∨ (0x10FFFF : Int) < v then .error DelimError.outOfRange
    else .ok (goRuneString v)

/-- Full characterization of the resolver on `0x`-prefixed tokens, against
the mathematical value of the remainder. -/
theorem parseDelimiter_hex_eq (s : List Char) :
    parseDelimiter ('0' :: 'x' :: s) = resolveSpec s := by
  unfold parseDelimiter resolveSpec
  have hpre : (['0', 'x'] : List Char).isPrefixOf ('0' :: 'x' :: s) = true := by
    simp [List.isPrefixOf]
  rw [if_pos hpre]
  have hdrop : List.drop 2 ('0' :: 'x' :: s) = s := rfl
  rw [hdrop]
  unfold goParseIntHex32
  cases hv : hexValSpec s with
  | none => rfl
  | some v =>
    by_cases h1 : v < -(2 ^ 31) ∨ (2 ^ 31 : Int) ≤ v
    · simp only [if_pos h1]
    · simp only [if_neg h1]

/-- C4 counterexample: the token `0x80000000` has a remainder of pure hex
digits whose value 2^31 lies outside `[0, 0x10FFFF]`, so the claim demands
a DelimiterOutOfRange error, but Go's 32-bit `ParseInt` overflows first and
the code reports the invalid-hex (InvalidDelimiterSyntax) error instead. -/
theorem hex_error_C4_cex :
    hexValSpec ("80000000").toList = some 2147483648 ∧
    (0x10FFFF : Int) < 2147483648 ∧
    parseDelimiter ("0x80000000").toList = .error DelimError.invalidHex ∧
    DelimError.invalidHex ≠ DelimError.outOfRange :=
  ⟨by decide, by decide, rfl, by decide⟩

/-- C4 amended: for a `0x`-prefixed token, a remainder that does not parse
as a signed base-16 integer (bad digit, empty, or sign-only) or whose value
overflows a signed 32-bit integer yields the InvalidDelimiterSyntax error;
a value parsed within 32 bits but outside `[0, 0x10FFFF]` (including
negative values) yields the DelimiterOutOfRange error; there are no other
error cases on such tokens. -/
theorem hex_error_C4 (s : List Char) :
    parseDelimiter ('0' :: 'x' :: s) = resolveSpec s ∧
      (resolveSpec s = .error DelimError.outOfRange ↔
        ∃ v, hexValSpec s = some v ∧ -(2 ^ 31) ≤ v ∧ v < 2 ^ 31 ∧
          (v < 0 ∨ (0x10FFFF : Int) < v)) := by
  refine ⟨parseDelimiter_hex_eq s, ?_⟩
  unfold resolveSpec
  cases hv : hexValSpec s with
  | none => simp
  | some v =>
    by_cases h1 : v < -(2 ^ 31) ∨ (2 ^ 31 : Int) ≤ v
    · simp only [if_pos h1]
      constructor
      · intro h
        cases h
      · rintro ⟨w, hw, hw1, hw2, _⟩
        cases hw
        omega
    · simp only [if_neg h1]
      by_cases h2 : v < 0 ∨ (0x10FFFF : Int) < v
      · simp only [if_pos h2]
        constructor
        · intro _
          exact ⟨v, rfl, by omega, by omega, h2⟩
        · intro _
          trivial
      · simp only [if_neg h2]
        constructor
        · intro h
          cases h
        · rintro ⟨w, hw, _, _, hw3⟩
          cases hw
          exact absurd hw3 h2

theorem hex_error_C4_witness :
    parseDelimiter ('0' :: 'x' :: ("110000").toList) =
        resolveSpec (("110000").toList) ∧
      (resolveSpec (("110000").toList) = .error DelimError.outOfRange ↔
        ∃ v, hexValSpec (("110000").toList) = some v ∧ -(2 ^ 31) ≤ v ∧
          v < 2 ^ 31 ∧ (v < 0 ∨ (0x10FFFF : Int) < v)) :=
  hex_error_C4 (("110000").toList)

/-- C5 counterexample: `0xD800` parses to the surrogate code point 0xD800,
inside `[0, 0x10FFFF]`, but the resolver returns the replacement character
U+FFFD — not the code point with the parsed value. -/
theorem hex_value_C5_cex :
    parseDelimiter ("0xD800").toList = .ok [Char.ofNat 0xFFFD] ∧
    (Char.ofNat 0xFFFD).toNat ≠ 0xD800 :=
  ⟨rfl, by decide⟩

/-- C5 amended: for a `0x` token whose remainder parses to a value `v` in
`[0, 0x10FFFF]`, the resolver succeeds and returns one character: the code
point with value `v` — except that a surrogate value (0xD800–0xDFFF) is
replaced by U+FFFD, as Go's `string(rune(v))` does. -/
theorem hex_value_C5 (s : List Char) (v : Int) (hv : hexValSpec s = some v)
    (h0 : 0 ≤ v) (h1 : v ≤ 0x10FFFF) :
    parseDelimiter ('0' :: 'x' :: s) = .ok (goRuneString v) ∧
    (¬(0xD800 ≤ v ∧ v ≤ 0xDFFF) → goRuneString v = [Char.ofNat v.toNat]) ∧
    ((0xD800 ≤ v ∧ v ≤ 0xDFFF) → goRuneString v = [Char.ofNat 0xFFFD]) := by
  refine ⟨?_, ?_, ?_⟩
  · rw [parseDelimiter_hex_eq s]
    unfold resolveSpec
    rw [hv]
    have hr1 : ¬(v < -(2 ^ 31) ∨ (2 ^ 31 : Int) ≤ v) := by omega
    have hr2 : ¬(v < 0 ∨ (0x10FFFF : Int) < v) := by omega
    show (if v < -(2 ^ 31) ∨ (2 ^ 31 : Int) ≤ v then
        (Except.error DelimError.invalidHex : Except DelimError (List Char))
      else if v < 0 ∨ (0x10FFFF : Int) < v then
        Except.error DelimError.outOfRange
      else Except.ok (goRuneString v)) = Except.ok (goRuneString v)
    rw [if_neg hr1, if_neg hr2]
  · intro hs
    unfold goRuneString
    rw [if_pos (by omega)]
  · intro hs
    unfold goRuneString
    rw [if_neg (by omega)]

theorem hex_value_C5_witness :
    parseDelimiter ('0' :: 'x' :: ("22").toList) = .ok (goRuneString 34) ∧
    (¬((0xD800 : Int) ≤ 34 ∧ (34 : Int) ≤ 0xDFFF) →
      goRuneString 34 = [Char.ofNat (34 : Int).toNat]) ∧
    (((0xD800 : Int) ≤ 34 ∧ (34 : Int) ≤ 0xDFFF) →
      goRuneString 34 = [Char.ofNat 0xFFFD]) :=
  hex_value_C5 ("22").toList 34 (by decide) (by decide) (by decide)

/-- C6: at end-of-stream the still-pending record and the unterminated
trailing fragment each pass the unconditional drop-if-empty rule and, when
non-empty, are emitted in stream order — pending record first, fragment
second — after all interior records; in particular `"hello"` with no
trailing separator emits `"hello"` wrapped. -/
theorem eof_emission_C6 :
    (∀ (cfg : Config) (input : List Char),
      run cfg input = interiorPart cfg input ++ terminalPart cfg input) ∧
    run cfgDefault ("hello").toList = ("\"hello\"\n").toList := by
  constructor
  · intro cfg input
    rw [run_eq_refRest]
    unfold refRest interiorPart terminalPart
    have hfun : emitLast cfg = terminalOut cfg :=
      funext (emitLast_eq_terminalOut cfg)
    rw [hfun]
  · decide

/-- C7: a token that does not begin with `0x` resolves to itself verbatim,
with no error — including the empty token and multi-character tokens. -/
theorem literal_token_C7 (arg : List Char)
    (h : (['0', 'x'] : List Char).isPrefixOf arg = false) :
    parseDelimiter arg = .ok arg := by
  unfold parseDelimiter
  rw [if_neg]
  simp [h]

theorem literal_token_C7_witness :
    parseDelimiter [] = .ok [] ∧
      parseDelimiter ("[]").toList = .ok (("[]").toList) :=
  ⟨literal_token_C7 [] (by decide),
    literal_token_C7 ("[]").toList (by decide)⟩

/-- C8: with stripping on, a record's emptiness is classified after
trimming, so the emission blocks drop a whitespace-only record exactly like
an empty one; with stripping off, no trimming happens and emptiness is the
untrimmed length — a non-empty record is emitted with its content
untouched. -/
theorem strip_classify_C8 (cfg : Config) (r : List Char) :
    (cfg.stripWS = true →
      (emitLast cfg r = [] ↔ trimSpace r = []) ∧
      (emitInterior cfg r = [] ↔
        (trimSpace r = [] ∧ cfg.skipEmpty = true)) ∧
      ((∀ c ∈ r, goIsSpace c = true) → emitLast cfg r = [])) ∧
    (cfg.stripWS = false →
      (emitLast cfg r = [] ↔ r = []) ∧
      (emitInterior cfg r = [] ↔ (r = [] ∧ cfg.skipEmpty = true)) ∧
      (r ≠ [] →
        emitLast cfg r = processLine r cfg.delimiter cfg.escapeDelim)) := by
  constructor
  · intro hs
    have hrec : stripRec cfg r = trimSpace r := by
      unfold stripRec
      rw [hs]
      rfl
    refine ⟨?_, ?_, ?_⟩
    · rw [emitLast_eq_nil_iff, hrec]
    · rw [emitInterior_eq_nil_iff, hrec]
    · intro hws
      rw [emitLast_eq_nil_iff, hrec]
      exact trimSpace_all_space hws
  · intro hs
    have hrec : stripRec cfg r = r := by
      unfold stripRec
      rw [hs]
      rfl
    refine ⟨?_, ?_, ?_⟩
    · rw [emitLast_eq_nil_iff, hrec]
    · rw [emitInterior_eq_nil_iff, hrec]
    · intro hne
      unfold emitLast
      rw [hrec, if_pos (List.length_pos.mpr hne)]

theorem strip_classify_C8_witness :
    emitLast cfgStrip ((" \t").toList) = [] ∧
      emitLast cfgDefault ((" \t").toList) =
        processLine ((" \t").toList) cfgDefault.delimiter
          cfgDefault.escapeDelim :=
  ⟨((strip_classify_C8 cfgStrip ((" \t").toList)).1 rfl).2.2 (by decide),
    ((strip_classify_C8 cfgDefault ((" \t").toList)).2 rfl).2.2 (by decide)⟩

/-- C9: whenever the loop state holds a buffered record (the `Option`-typed
buffer mirrors Go's single `bufferedLine` variable plus `hasBufferedLine`
flag, so there is never more than one), that record is exactly the most
recently read separator-terminated record: it contains no separator and
sits immediately before the unread remainder of the input, with its
separator in between. -/
theorem lookahead_C9 (cfg : Config) (input : List Char) (k : Nat)
    (b : List Char)
    (hb : ((stepLoop cfg)^[k] (initState input)).buffered = some b) :
    sepChar cfg ∉ b ∧
      ∃ c1, input = c1 ++
        (b ++ sepChar cfg ::
          ((stepLoop cfg)^[k] (initState input)).remaining) := by
  obtain ⟨c, hc, hinv⟩ := stepLoop_inv cfg input k
  obtain ⟨hnm, c1, hc1⟩ := hinv b hb
  refine ⟨hnm, c1, ?_⟩
  conv_lhs => rw [hc, hc1]
  simp

theorem lookahead_C9_witness :
    sepChar cfgDefault ∉ ['a'] ∧
      ∃ c1, ("a\nb").toList = c1 ++
        (['a'] ++ sepChar cfgDefault ::
          ((stepLoop cfgDefault)^[1]
            (initState (("a\nb").toList))).remaining) :=
  lookahead_C9 cfgDefault ("a\nb").toList 1 ['a'] (by decide)

/-- C10: the pipeline is deterministic and its output depends on nothing
but the configuration and the input's record decomposition — in particular
two runs on identical input bytes with identical configuration produce
identical output. -/
theorem deterministic_C10 (cfg : Config) (i1 i2 : List Char)
    (h : splitSep (sepChar cfg) i1 = splitSep (sepChar cfg) i2) :
    run cfg i1 = run cfg i2 := by
  rw [run_eq_refRest, run_eq_refRest, h]

theorem deterministic_C10_witness :
    run cfgDefault ("a\nb").toList = run cfgDefault ("a\nb").toList :=
  deterministic_C10 cfgDefault ("a\nb").toList ("a\nb").toList rfl

end Wrapline
